import Mathlib

/-!
Verification of the streaming speech-to-text pipeline in
`src/voice_assistant.py` (the repository's voice-assistant script).

Strings are modelled as `List Char`; Python `str.strip` becomes `trim`,
`str.startswith` becomes `startsWith`.  Audio buffers are modelled as lists
(only byte counts and int16 sample values matter to the pipeline), floats as
rationals, and the speech engine as an abstract function from a window to a
result.  Each worker-loop construct of the source is embedded as a pure
state-passing function.
-/

/-- Whitespace test used by Python's default `str.strip`. -/
def isWS (c : Char) : Bool := c.isWhitespace

/-- Python `str.lstrip`: drop leading whitespace. -/
def trimLeft (s : List Char) : List Char := s.dropWhile isWS

/-- Python `str.rstrip`: drop trailing whitespace. -/
def trimRight (s : List Char) : List Char := (s.reverse.dropWhile isWS).reverse

/-- Python `str.strip`: drop leading and trailing whitespace. -/
def trim (s : List Char) : List Char := trimRight (trimLeft s)

/-- Python `current.startswith(previous)`. -/
def startsWith (s pre : List Char) : Bool := List.isPrefixOf pre s

/-- `delta_text` from `src/voice_assistant.py` lines 106-113: both arguments
are stripped; if the stripped previous text is empty the stripped current text
is returned; if the stripped current text starts with the stripped previous
text, the remainder after that leading part is returned stripped; otherwise
the stripped current text is returned whole. -/
def delta_text (current previous : List Char) : List Char :=
  if trim previous = [] then trim current
  else if startsWith (trim current) (trim previous) then
    trim ((trim current).drop (trim previous).length)
  else trim current

/-- Signed 16-bit little-endian decoding of one byte pair, matching how
np.frombuffer with dtype int16 reinterprets the accumulated byte buffer. -/
def int16OfBytes (lo hi : Int) : Int :=
  if lo + 256 * hi < 32768 then lo + 256 * hi else lo + 256 * hi - 65536

/-- The byte buffer viewed as int16 samples (np.frombuffer(buffer, np.int16)).
In the source the buffer length is always even, because every frame comes from
an int16 tobytes call, so no trailing odd byte can occur. -/
def samplesOfBytes : List Int → List Int
  | lo :: hi :: rest => int16OfBytes lo hi :: samplesOfBytes rest
  | _ => []

/-- Mean of the squares of the window's samples scaled by 1/32768: the source
computes audio_np = int16 values / 32768.0 and rms = sqrt(mean(square)) with
rms = 0 for an empty window; `meanSq` is the quantity under that square root. -/
def meanSq (samples : List Int) : ℚ :=
  if samples.length = 0 then 0
  else (samples.map (fun s => ((s : ℚ) / 32768) ^ 2)).sum / samples.length

/-- Result of one engine transcribe call: the joined segment text, or a raised
exception. -/
inductive EngineResult where
  | ok (text : List Char)
  | err
deriving DecidableEq

/-- Outcome of processing one accumulated window: how many engine transcribe
calls were made (0 or 1), the fragment queued for typing (if any), and the
updated last_text state. -/
structure StepResult where
  engineCalls : Nat
  fragment : Option (List Char)
  last_text : List Char
deriving DecidableEq

/-- Processing of one accumulated window by the transcription worker
(src/voice_assistant.py lines 141-175), once the buffer has reached the byte
threshold.  The source computes rms = sqrt(meanSq window) as a float and skips
the window when rms < rms_threshold; since rms is a nonnegative square root,
that comparison is equivalent to 0 < rms_threshold ∧ meanSq window <
rms_threshold ^ 2, the root-free form used here (the equivalence with the
square-root form is proved in `gate_blocks_iff`).  On the skip path and the
engine-failure path nothing is queued and last_text is unchanged; otherwise
the joined text is stripped, filtered by min_text_len, turned into a delta
against last_text, the single-space substitution applied on an exact repeat,
a trailing space appended when missing, and the fragment queued with
last_text updated. -/
def processWindow (rms_threshold : ℚ) (min_text_len : Int)
    (engine : List Int → EngineResult) (window : List Int)
    (last_text : List Char) : StepResult :=
  if 0 < rms_threshold ∧ meanSq window < rms_threshold ^ 2 then
    ⟨0, none, last_text⟩
  else
    match engine window with
    | .err => ⟨1, none, last_text⟩
    | .ok raw =>
      let text := trim raw
      if text ≠ [] ∧ min_text_len ≤ (text.length : Int) then
        let n1 := delta_text text last_text
        let n2 := if n1 = [] ∧ text = last_text then [' '] else n1
        if n2 ≠ [] then
          ⟨1, some (if n2.getLast? = some ' ' then n2 else n2 ++ [' ']), text⟩
        else ⟨1, none, last_text⟩
      else ⟨1, none, last_text⟩

/-- Mutable state of the transcription worker: the growable byte buffer and
the most recently accepted transcript. -/
structure WorkerState where
  buffer : List Int
  last_text : List Char
deriving DecidableEq

/-- One iteration of the transcription worker's loop body for one arriving
chunk (src/voice_assistant.py lines 132-175): extend the byte buffer; below
the byte threshold do nothing more; otherwise process the whole buffer as one
window (viewed as int16 samples) and clear the buffer — the buffer is cleared
on the silent-skip path, the engine-failure path and the normal path alike. -/
def worker_step (target : Int) (t : ℚ) (minLen : Int)
    (engine : List Int → EngineResult) (st : WorkerState) (chunk : List Int) :
    WorkerState × Option (List Char) :=
  let b := st.buffer ++ chunk
  if (b.length : Int) < target then (⟨b, st.last_text⟩, none)
  else
    let r := processWindow t minLen engine (samplesOfBytes b) st.last_text
    (⟨[], r.last_text⟩, r.fragment)

/-- The transcription worker at window granularity: windows are processed in
arrival order by the single worker (one engine call in flight at a time) with
the last_text state threaded through, and produced fragments are enqueued in
that order.  Returns the queued fragments in order and the final last_text. -/
def runWindows (t : ℚ) (minLen : Int) (engine : List Int → EngineResult)
    (last : List Char) : List (List Int) → List (List Char) × List Char
  | [] => ([], last)
  | w :: ws =>
    let r := processWindow t minLen engine w last
    let rest := runWindows t minLen engine r.last_text ws
    (r.fragment.toList ++ rest.1, rest.2)

/-- The typing worker (src/voice_assistant.py lines 178-191) consumes the
fragment queue in FIFO order, one blocking ydotool call per fragment; an
injection failure is logged and skipped without affecting later fragments, so
the sequence of injection calls is exactly the queued sequence. -/
def typing_worker_calls (queued : List (List Char)) : List (List Char) :=
  queued

/-- The ChunkAccumulator view of the worker loop (src/voice_assistant.py
lines 129-139 and 175): starting from a byte buffer, frames are appended one
at a time, and whenever the accumulated length reaches the byte threshold the
entire buffer is emitted as one window and cleared.  Returns the residual
buffer and the emitted windows in order. -/
def feed (target : Int) (buffer : List Int) :
    List (List Int) → List Int × List (List Int)
  | [] => (buffer, [])
  | f :: fs =>
    let b := buffer ++ f
    if (b.length : Int) < target then feed target b fs
    else
      let r := feed target [] fs
      (r.1, b :: r.2)

/-- Python int(): truncation toward zero. -/
def pyInt (q : ℚ) : Int := q.num.tdiv q.den

/-- target_bytes = int(sample_rate * chunk_seconds * bytes_per_sample) with
bytes_per_sample = 2 (src/voice_assistant.py lines 127-128). -/
def target_bytes (sample_rate : Nat) (chunk_seconds : ℚ) : Int :=
  pyInt (sample_rate * chunk_seconds * 2)

/-- Whether the program rejects a parsed configuration before starting the
pipeline stages.  parse_args (src/voice_assistant.py lines 44-77) only
converts --chunk-seconds and --rms-threshold with float(), and main
(lines 193-267) uses the parsed values directly: no code path checks
chunk_seconds > 0 or rms_threshold in [0,1], so no parsed configuration value
is ever rejected. -/
def configRejected (_chunk_seconds _rms_threshold : ℚ) : Bool := false

-- Basic facts about the trimming functions.

theorem trimLeft_nil : trimLeft [] = [] := rfl

theorem trimRight_nil : trimRight [] = [] := rfl

theorem trim_nil : trim [] = [] := rfl

theorem startsWith_iff {s p : List Char} : startsWith s p = true ↔ p <+: s := by
  simp [startsWith]

theorem dropWhile_idem (p : α → Bool) (l : List α) :
    (l.dropWhile p).dropWhile p = l.dropWhile p := by
  cases h : l.dropWhile p with
  | nil => rfl
  | cons a t =>
    have ha : p a = false := by
      have := List.head?_dropWhile_not p l
      rw [h] at this
      simpa using this
    simp [List.dropWhile_cons, ha]

theorem trimLeft_idem (s : List Char) : trimLeft (trimLeft s) = trimLeft s :=
  dropWhile_idem isWS s

theorem trimRight_idem (s : List Char) : trimRight (trimRight s) = trimRight s := by
  unfold trimRight
  rw [List.reverse_reverse, dropWhile_idem]

theorem trimLeft_append_ws {w : List Char} (h : ∀ c ∈ w, isWS c) (s : List Char) :
    trimLeft (w ++ s) = trimLeft s :=
  List.dropWhile_append_of_pos h

theorem trimRight_append_ws {w : List Char} (h : ∀ c ∈ w, isWS c) (s : List Char) :
    trimRight (s ++ w) = trimRight s := by
  unfold trimRight
  rw [List.reverse_append, List.dropWhile_append_of_pos (by simpa using h)]

theorem trimLeft_eq_nil_iff {s : List Char} : trimLeft s = [] ↔ ∀ c ∈ s, isWS c := by
  simp [trimLeft, List.dropWhile_eq_nil_iff]

theorem trimRight_eq_nil_iff {s : List Char} : trimRight s = [] ↔ ∀ c ∈ s, isWS c := by
  unfold trimRight
  rw [List.reverse_eq_nil_iff, List.dropWhile_eq_nil_iff]
  constructor
  · intro h c hc
    exact h c (List.mem_reverse.2 hc)
  · intro h c hc
    exact h c (List.mem_reverse.1 hc)

theorem trimLeft_decomp (s : List Char) :
    ∃ w, s = w ++ trimLeft s ∧ ∀ c ∈ w, isWS c := by
  refine ⟨s.takeWhile isWS, ?_, fun c hc => List.mem_takeWhile_imp hc⟩
  exact (List.takeWhile_append_dropWhile isWS s).symm

theorem trimRight_decomp (s : List Char) :
    ∃ w, s = trimRight s ++ w ∧ ∀ c ∈ w, isWS c := by
  refine ⟨(s.reverse.takeWhile isWS).reverse, ?_, ?_⟩
  · conv_lhs => rw [← s.reverse_reverse, ← List.takeWhile_append_dropWhile isWS s.reverse]
    rw [List.reverse_append]
    rfl
  · intro c hc
    exact List.mem_takeWhile_imp (List.mem_reverse.1 hc)

theorem trim_eq_nil_iff {s : List Char} : trim s = [] ↔ ∀ c ∈ s, isWS c := by
  obtain ⟨w, hw, hws⟩ := trimLeft_decomp s
  unfold trim
  rw [trimRight_eq_nil_iff]
  constructor
  · intro h c hc
    rw [hw] at hc
    rcases List.mem_append.1 hc with h1 | h2
    exacts [hws c h1, h c h2]
  · intro h c hc
    refine h c ?_
    rw [hw]
    exact List.mem_append.2 (Or.inr hc)

theorem trim_ws_append {w : List Char} (h : ∀ c ∈ w, isWS c) (s : List Char) :
    trim (w ++ s) = trim s := by
  unfold trim
  rw [trimLeft_append_ws h]

/-- Appending a list whose right strip is itself in front of anything commutes
with the right strip. -/
theorem trimRight_append_of_closed {m : List Char} (h1 : trimRight m = m)
    (r : List Char) : trimRight (m ++ r) = m ++ trimRight r := by
  unfold trimRight at h1 ⊢
  rw [List.reverse_append, List.dropWhile_append]
  by_cases h : (r.reverse.dropWhile isWS).isEmpty
  · rw [if_pos h]
    have hr : r.reverse.dropWhile isWS = [] := by simpa [List.isEmpty_iff] using h
    rw [hr]
    simpa using h1
  · rw [if_neg h, List.reverse_append, List.reverse_reverse]

theorem trim_append_ws {w : List Char} (h : ∀ c ∈ w, isWS c) (s : List Char) :
    trim (s ++ w) = trim s := by
  unfold trim trimLeft
  rw [List.dropWhile_append]
  by_cases hs : (s.dropWhile isWS).isEmpty
  · rw [if_pos hs]
    have h1 : trimLeft w = [] := trimLeft_eq_nil_iff.2 h
    have h2 : s.dropWhile isWS = [] := by simpa [List.isEmpty_iff] using hs
    unfold trimLeft at h1
    rw [h1, h2]
  · rw [if_neg hs]
    exact trimRight_append_ws h _

theorem trim_trimRight (s : List Char) : trim (trimRight s) = trim s := by
  obtain ⟨w, hw, hws⟩ := trimRight_decomp s
  conv_rhs => rw [hw]
  rw [trim_append_ws hws]

theorem trim_idem (s : List Char) : trim (trim s) = trim s := by
  unfold trim
  rw [show trimRight (trimLeft (trimRight (trimLeft s)))
      = trim (trimRight (trimLeft s)) from rfl]
  rw [trim_trimRight]
  unfold trim
  rw [trimLeft_idem]

theorem trimLeft_ne_nil_of_trim {p : List Char} (hp : trim p ≠ []) :
    trimLeft p ≠ [] := by
  intro h
  apply hp
  unfold trim
  rw [h]
  rfl

theorem trimLeft_append_of_closed {z : List Char} (h1 : trimLeft z = z)
    (hz : z ≠ []) (s : List Char) : trimLeft (z ++ s) = z ++ s := by
  unfold trimLeft at h1 ⊢
  rw [List.dropWhile_append, h1, if_neg (by simpa [List.isEmpty_iff] using hz)]

/-- Stripping a concatenation whose left part does not strip to nothing:
the stripped left part survives whole, followed by the right-stripped rest. -/
theorem trim_append_of_trim_ne {p : List Char} (hp : trim p ≠ []) (s : List Char) :
    ∃ w2, (∀ c ∈ w2, isWS c) ∧ trim (p ++ s) = trim p ++ trimRight (w2 ++ s) := by
  obtain ⟨w1, hw1, hws1⟩ := trimLeft_decomp p
  have hL : trimLeft p ≠ [] := trimLeft_ne_nil_of_trim hp
  obtain ⟨w2, hw2, hws2⟩ := trimRight_decomp (trimLeft p)
  refine ⟨w2, hws2, ?_⟩
  have h2 : trimLeft (p ++ s) = trimLeft p ++ s := by
    conv_lhs => rw [hw1, List.append_assoc]
    rw [trimLeft_append_ws hws1]
    exact trimLeft_append_of_closed (trimLeft_idem p) hL s
  unfold trim
  rw [h2]
  conv_lhs => rw [hw2, List.append_assoc]
  rw [trimRight_append_of_closed (trimRight_idem (trimLeft p))]

/-- C1: for every pair of strings where the current one literally starts with
the previous one, `delta_text` returns the remainder of the current string
after the matched leading part, stripped of surrounding whitespace (the
function strips both inputs before comparing). -/
theorem delta_text_startsWith (c p : List Char) (h : startsWith c p = true) :
    delta_text c p = trim (c.drop p.length) := by
  obtain ⟨s, rfl⟩ := startsWith_iff.1 h
  rw [List.drop_left]
  unfold delta_text
  by_cases hp : trim p = []
  · rw [if_pos hp, trim_ws_append (trim_eq_nil_iff.1 hp)]
  · rw [if_neg hp]
    obtain ⟨w2, hws2, htc⟩ := trim_append_of_trim_ne hp s
    rw [htc, if_pos (startsWith_iff.2 (List.prefix_append _ _)),
      List.drop_left, trim_trimRight, trim_ws_append hws2]

theorem delta_text_startsWith_witness :
    startsWith ['a', 'b'] ['a'] = true ∧
      delta_text ['a', 'b'] ['a'] = trim ((['a', 'b'] : List Char).drop
        (['a'] : List Char).length) :=
  ⟨by decide, delta_text_startsWith ['a', 'b'] ['a'] (by decide)⟩

/-- C2 counterexample: with the empty string as the current (first) argument
and a non-blank previous (second) argument, `delta_text` returns the empty
string, not the stripped previous argument; the claimed equation
`delta("", anything) == trim(anything)` fails at `anything = "x"`. -/
theorem delta_text_empty_current_cex :
    delta_text [] ['x'] ≠ trim ['x'] := by decide

/-- C2 amended: it is the roles the other way around — for every string, the
delta of that string against an empty previous string is its stripped value,
and the delta of an empty current string against anything is empty. -/
theorem delta_text_empty_previous (a : List Char) :
    delta_text a [] = trim a ∧ delta_text [] a = [] := by
  constructor
  · unfold delta_text
    rw [if_pos trim_nil]
  · unfold delta_text
    split_ifs <;> simp [trim_nil]

/-- C3 counterexample: `delta_text` strips its first argument even on the
divergent (no shared leading part) branch, so the result is the stripped
current string, not the current string unchanged: at `c = " b"`, `p = "a"`
the claim `delta(c,p) == c` fails. -/
theorem delta_text_divergent_cex :
    (['a'] : List Char) ≠ [] ∧ startsWith [' ', 'b'] ['a'] = false ∧
      delta_text [' ', 'b'] ['a'] ≠ [' ', 'b'] := by decide

/-- C3 amended: for every previous string whose stripped value is non-empty
and every current string whose stripped value does not start with the
stripped previous value, `delta_text` returns the stripped current string. -/
theorem delta_text_divergent (c p : List Char) (h1 : trim p ≠ [])
    (h2 : startsWith (trim c) (trim p) = false) : delta_text c p = trim c := by
  unfold delta_text
  rw [if_neg h1, if_neg (by simp [h2])]

theorem delta_text_divergent_witness :
    trim ['a'] ≠ [] ∧ startsWith (trim ['b']) (trim ['a']) = false ∧
      delta_text ['b'] ['a'] = trim ['b'] :=
  ⟨by decide, by decide, delta_text_divergent ['b'] ['a'] (by decide) (by decide)⟩

/-- The root-free gate condition used in `processWindow` is exactly the
source's comparison rms < rms_threshold, where rms is the real square root of
the mean square. -/
theorem gate_blocks_iff (t : ℚ) (w : List Int) :
    (0 < t ∧ meanSq w < t ^ 2) ↔ Real.sqrt ((meanSq w : ℚ) : ℝ) < (t : ℝ) := by
  constructor
  · rintro ⟨ht, hm⟩
    rw [Real.sqrt_lt' (by exact_mod_cast ht)]
    exact_mod_cast hm
  · intro h
    have ht : (0 : ℝ) < (t : ℝ) := lt_of_le_of_lt (Real.sqrt_nonneg _) h
    refine ⟨by exact_mod_cast ht, ?_⟩
    rw [Real.sqrt_lt' ht] at h
    exact_mod_cast h

theorem delta_text_self (q : List Char) : delta_text q q = [] := by
  unfold delta_text
  split_ifs with h1 h2
  · exact h1
  · rw [List.drop_length]
    exact trim_nil
  · exact absurd (startsWith_iff.2 ⟨[], List.append_nil _⟩) h2

theorem trim_delta_text (c p : List Char) :
    trim (delta_text c p) = delta_text c p := by
  unfold delta_text
  split_ifs <;> exact trim_idem _

theorem trim_getLast_not_ws (x : List Char) :
    (trim x).getLast? ≠ some ' ' := by
  intro h
  unfold trim trimRight at h
  rw [List.getLast?_reverse] at h
  have h2 := List.head?_dropWhile_not isWS (trimLeft x).reverse
  rw [h] at h2
  have h3 : isWS ' ' = false := h2
  exact absurd h3 (by decide)

/-- C4: the raw delta of any string against itself is the empty string, and
when the engine's (stripped) transcript equals the previously accepted one and
it passes the acceptance filter, the worker queues exactly one single-space
fragment (the exact-repeat tie-break) and last_text stays the same. -/
theorem delta_text_repeat_space (p : List Char) (t : ℚ) (minLen : Int)
    (engine : List Int → EngineResult) (w : List Int) (raw last : List Char)
    (hgate : ¬(0 < t ∧ meanSq w < t ^ 2)) (hok : engine w = .ok raw)
    (hsame : trim raw = last) (hne : last ≠ [])
    (hlen : minLen ≤ (last.length : Int)) :
    delta_text p p = [] ∧
      processWindow t minLen engine w last = ⟨1, some [' '], last⟩ := by
  refine ⟨delta_text_self p, ?_⟩
  simp only [processWindow, if_neg hgate, hok, hsame]
  rw [if_pos ⟨hne, hlen⟩, delta_text_self last]
  simp

theorem delta_text_repeat_space_witness :
    delta_text ['a'] ['a'] = [] ∧
      processWindow 0 0 (fun _ => EngineResult.ok ['h', 'i']) [3] ['h', 'i'] =
        ⟨1, some [' '], ['h', 'i']⟩ :=
  delta_text_repeat_space ['a'] 0 0 (fun _ => EngineResult.ok ['h', 'i']) [3]
    ['h', 'i'] ['h', 'i'] (by decide) rfl (by decide) (by decide) (by decide)

/-- C6: the engine's transcribe call happens for an accumulated window exactly
when the window's RMS amplitude (the square root of the mean of the squared
samples scaled to [-1,1]) is at least rms_threshold; a window below the gate
makes zero engine calls and produces no fragment; and once the byte threshold
is reached the worker's buffer is cleared on every path. -/
theorem gate_engine_iff (t : ℚ) (minLen : Int)
    (engine : List Int → EngineResult) (w : List Int) (last : List Char) :
    ((processWindow t minLen engine w last).engineCalls = 1 ↔
      (t : ℝ) ≤ Real.sqrt ((meanSq w : ℚ) : ℝ)) ∧
    (Real.sqrt ((meanSq w : ℚ) : ℝ) < (t : ℝ) →
      (processWindow t minLen engine w last).engineCalls = 0 ∧
      (processWindow t minLen engine w last).fragment = none) ∧
    (∀ (target : Int) (st : WorkerState) (chunk : List Int),
      ¬ ((st.buffer ++ chunk).length : Int) < target →
      (worker_step target t minLen engine st chunk).1.buffer = []) := by
  have hcalls : ¬(0 < t ∧ meanSq w < t ^ 2) →
      (processWindow t minLen engine w last).engineCalls = 1 := by
    intro hc
    cases hE : engine w with
    | ok raw =>
      simp only [processWindow, if_neg hc, hE]
      split_ifs <;> rfl
    | err => simp [processWindow, if_neg hc, hE]
  have hblock : (0 < t ∧ meanSq w < t ^ 2) →
      processWindow t minLen engine w last = ⟨0, none, last⟩ := by
    intro hc
    unfold processWindow
    rw [if_pos hc]
  refine ⟨⟨?_, ?_⟩, ?_, ?_⟩
  · intro h1
    by_contra hlt
    rw [not_le] at hlt
    rw [hblock ((gate_blocks_iff t w).2 hlt)] at h1
    simp at h1
  · intro hge
    apply hcalls
    intro hc
    exact absurd ((gate_blocks_iff t w).1 hc) (not_lt.2 hge)
  · intro hlt
    rw [hblock ((gate_blocks_iff t w).2 hlt)]
    exact ⟨rfl, rfl⟩
  · intro target st chunk h
    simp only [worker_step]
    rw [if_neg h]

theorem gate_engine_iff_witness :
    (processWindow 1 0 (fun _ => EngineResult.ok ['h', 'i']) [0, 0] []).engineCalls = 0 ∧
      (processWindow 1 0 (fun _ => EngineResult.ok ['h', 'i']) [0, 0] []).fragment = none :=
  (gate_engine_iff 1 0 (fun _ => EngineResult.ok ['h', 'i']) [0, 0] []).2.1 (by
    have h : meanSq [0, 0] = 0 := by norm_num [meanSq]
    rw [h]
    norm_num [Real.sqrt_zero])

/-- C7: an engine failure on a window queues no fragment and leaves last_text
unchanged, and the worker continues: the run over the remaining windows equals
the run without the failed window, so the next window is still processed; at
chunk level the step with the failing engine clears the buffer, keeps
last_text and queues nothing. -/
theorem engine_failure_isolated (t : ℚ) (minLen : Int)
    (engine : List Int → EngineResult) (w : List Int) (last : List Char)
    (ws : List (List Int)) (hgate : ¬(0 < t ∧ meanSq w < t ^ 2))
    (herr : engine w = .err) :
    processWindow t minLen engine w last = ⟨1, none, last⟩ ∧
    runWindows t minLen engine last (w :: ws) = runWindows t minLen engine last ws ∧
    (∀ (target : Int) (st : WorkerState) (chunk : List Int),
      samplesOfBytes (st.buffer ++ chunk) = w → st.last_text = last →
      ¬ ((st.buffer ++ chunk).length : Int) < target →
      worker_step target t minLen engine st chunk = (⟨[], last⟩, none)) := by
  have h1 : processWindow t minLen engine w last = ⟨1, none, last⟩ := by
    simp [processWindow, if_neg hgate, herr]
  refine ⟨h1, ?_, ?_⟩
  · simp [runWindows, h1]
  · intro target st chunk hw hl hth
    simp only [worker_step]
    rw [if_neg hth, hw, hl, h1]

theorem engine_failure_isolated_witness :
    processWindow 0 0 (fun _ => EngineResult.err) [5] [] = ⟨1, none, []⟩ ∧
      runWindows 0 0 (fun _ => EngineResult.err) [] [[5], [7]] =
        runWindows 0 0 (fun _ => EngineResult.err) [] [[7]] :=
  ⟨(engine_failure_isolated 0 0 (fun _ => EngineResult.err) [5] [] [[7]]
      (by decide) rfl).1,
    (engine_failure_isolated 0 0 (fun _ => EngineResult.err) [5] [] [[7]]
      (by decide) rfl).2.1⟩

/-- C9: fragments reach the injection sink in window order: the single
transcription worker processes windows one at a time in arrival order with
last_text threaded through, enqueues at most one fragment per window in that
order, and the typing worker's injection-call sequence is exactly the queued
FIFO order — so the fragment of an earlier window is handed to the sink
before the fragment of a later window. -/
theorem fragments_fifo_order (t : ℚ) (minLen : Int)
    (engine : List Int → EngineResult) (last : List Char)
    (w1 w2 : List Int) (ws : List (List Int)) (F1 F2 : List Char)
    (h1 : (processWindow t minLen engine w1 last).fragment = some F1)
    (h2 : (processWindow t minLen engine w2
      (processWindow t minLen engine w1 last).last_text).fragment = some F2) :
    typing_worker_calls (runWindows t minLen engine last (w1 :: w2 :: ws)).1 =
      F1 :: F2 :: (runWindows t minLen engine
        (processWindow t minLen engine w2
          (processWindow t minLen engine w1 last).last_text).last_text ws).1 := by
  simp [typing_worker_calls, runWindows, h1, h2]

theorem fragments_fifo_order_witness :
    typing_worker_calls (runWindows 0 0
      (fun w => if w = [1] then EngineResult.ok ['a'] else EngineResult.ok ['a', 'b'])
      [] [[1], [2]]).1 = [['a', ' '], ['b', ' ']] := by
  have h := fragments_fifo_order 0 0
    (fun w => if w = [1] then EngineResult.ok ['a'] else EngineResult.ok ['a', 'b'])
    [] [1] [2] [] ['a', ' '] ['b', ' '] (by decide) (by decide)
  simpa [runWindows] using h

/-- C10: `delta_text` always returns a string with no leading or trailing
whitespace, and every fragment the worker queues is non-empty: it is either
exactly the single space (the repeat tie-break) or a non-empty
whitespace-free-at-the-ends string followed by exactly one trailing space —
so the injection sink is never handed the empty string. -/
theorem fragment_shape (t : ℚ) (minLen : Int)
    (engine : List Int → EngineResult) (w : List Int) (last f c p : List Char)
    (h : (processWindow t minLen engine w last).fragment = some f) :
    trim (delta_text c p) = delta_text c p ∧ f ≠ [] ∧
      (f = [' '] ∨ (f.dropLast ≠ [] ∧ trim f.dropLast = f.dropLast ∧
        f = f.dropLast ++ [' '])) := by
  refine ⟨trim_delta_text c p, ?_⟩
  simp only [processWindow] at h
  by_cases hgate : (0 < t ∧ meanSq w < t ^ 2)
  · rw [if_pos hgate] at h
    simp at h
  · rw [if_neg hgate] at h
    cases hE : engine w with
    | err =>
      simp only [hE] at h
      simp at h
    | ok raw =>
      simp only [hE] at h
      by_cases hfil : (trim raw ≠ [] ∧ minLen ≤ ((trim raw).length : Int))
      · rw [if_pos hfil] at h
        by_cases hrep : (delta_text (trim raw) last = [] ∧ trim raw = last)
        · rw [if_pos hrep] at h
          rw [if_pos (show ([' '] : List Char) ≠ [] from by decide)] at h
          simp at h
          have hf : f = [' '] := by
            first
            | exact h
            | exact h.symm
          subst hf
          exact ⟨by decide, Or.inl rfl⟩
        · rw [if_neg hrep] at h
          by_cases hn : delta_text (trim raw) last = []
          · rw [if_neg (by simp [hn])] at h
            simp at h
          · rw [if_pos hn] at h
            have hx := trim_getLast_not_ws (delta_text (trim raw) last)
            rw [trim_delta_text] at hx
            rw [if_neg hx] at h
            have hf : f = delta_text (trim raw) last ++ [' '] := by
              have h2 : some (delta_text (trim raw) last ++ [' ']) = some f := h
              exact (Option.some.inj h2).symm
            subst hf
            refine ⟨by simp, Or.inr ?_⟩
            rw [List.dropLast_concat]
            exact ⟨hn, trim_delta_text _ _, rfl⟩
      · rw [if_neg hfil] at h
        simp at h

theorem fragment_shape_witness :
    trim (delta_text ['x'] [' ', 'y']) = delta_text ['x'] [' ', 'y'] ∧
      (['h', 'i', ' '] : List Char) ≠ [] ∧
      ((['h', 'i', ' '] : List Char) = [' '] ∨
        ((['h', 'i', ' '] : List Char).dropLast ≠ [] ∧
          trim (['h', 'i', ' '] : List Char).dropLast =
            (['h', 'i', ' '] : List Char).dropLast ∧
          (['h', 'i', ' '] : List Char) =
            (['h', 'i', ' '] : List Char).dropLast ++ [' '])) :=
  fragment_shape 0 0 (fun _ => EngineResult.ok ['h', 'i']) [3] [] ['h', 'i', ' ']
    ['x'] [' ', 'y'] (by decide)

theorem feed_under (target : Int) (fs : List (List Int)) :
    ∀ buffer : List Int,
      (buffer.length : Int) + ((fs.map List.length).sum : Int) < target →
      feed target buffer fs = (buffer ++ fs.flatten, []) := by
  induction fs with
  | nil =>
    intro buffer h
    simp [feed]
  | cons f fs ih =>
    intro buffer h
    simp only [List.map_cons, List.sum_cons] at h
    simp only [feed]
    have hlt : (((buffer ++ f).length : Int)) < target := by
      simp only [List.length_append]
      omega
    rw [if_pos hlt]
    rw [ih (buffer ++ f) (by simp only [List.length_append]; omega)]
    simp

theorem feed_exact (target : Int) (hpos : 0 < target) (fs : List (List Int)) :
    ∀ buffer : List Int, (buffer.length : Int) < target →
      (buffer.length : Int) + ((fs.map List.length).sum : Int) = target →
      feed target buffer fs = ([], [buffer ++ fs.flatten]) := by
  induction fs with
  | nil =>
    intro buffer hlt hsum
    exfalso
    simp at hsum
    omega
  | cons f fs ih =>
    intro buffer hlt hsum
    simp only [List.map_cons, List.sum_cons] at hsum
    simp only [feed]
    by_cases hb : (((buffer ++ f).length : Int) < target)
    · rw [if_pos hb]
      rw [ih (buffer ++ f) hb (by simp only [List.length_append]; omega)]
      simp
    · rw [if_neg hb]
      have h0 : (fs.map List.length).sum = 0 := by
        simp only [List.length_append] at hb
        omega
      have hflat : fs.flatten = [] :=
        List.eq_nil_of_length_eq_zero (by rw [List.length_flatten, h0])
      rw [feed_under target fs [] (by simp [h0, hpos])]
      simp [hflat]

/-- C5: with the byte threshold computed as int(sample_rate*chunk_seconds*2),
feeding frames totalling exactly the threshold yields exactly one window
holding the entire buffered content and an empty residual buffer, while
feeding frames totalling one byte less yields zero windows with the buffer
retaining all the bytes. -/
theorem feed_threshold_boundary (sample_rate : Nat) (chunk_seconds : ℚ)
    (frames frames2 : List (List Int))
    (hpos : 0 < target_bytes sample_rate chunk_seconds)
    (h1 : ((frames.map List.length).sum : Int) =
      target_bytes sample_rate chunk_seconds)
    (h2 : ((frames2.map List.length).sum : Int) =
      target_bytes sample_rate chunk_seconds - 1) :
    feed (target_bytes sample_rate chunk_seconds) [] frames =
      ([], [frames.flatten]) ∧
    feed (target_bytes sample_rate chunk_seconds) [] frames2 =
      (frames2.flatten, []) := by
  constructor
  · have h := feed_exact (target_bytes sample_rate chunk_seconds) hpos frames []
      (by simpa using hpos) (by simpa using h1)
    simpa using h
  · have h := feed_under (target_bytes sample_rate chunk_seconds) frames2 []
      (by simp [h2])
    simpa using h

theorem feed_threshold_boundary_witness :
    feed (target_bytes 1 2) [] [[0, 1], [2, 3]] =
      ([], [([[0, 1], [2, 3]] : List (List Int)).flatten]) ∧
      feed (target_bytes 1 2) [] [[0, 1], [2]] =
        (([[0, 1], [2]] : List (List Int)).flatten, []) :=
  feed_threshold_boundary 1 2 [[0, 1], [2, 3]] [[0, 1], [2]]
    (by norm_num [target_bytes, pyInt]) (by norm_num [target_bytes, pyInt])
    (by norm_num [target_bytes, pyInt])

/-- C8 counterexample: the parsed configuration chunk_seconds = -1 (not > 0)
and rms_threshold = 2 (outside [0,1]) is not rejected — the source performs no
configuration validation — and the pipeline then starts and runs with the
resulting negative byte threshold int(16000 * -1 * 2) = -32000, under which
the very first frame immediately emits a window, instead of the run failing
with a fatal error before any stage starts. -/
theorem config_validation_cex :
    configRejected (-1) 2 = false ∧ target_bytes 16000 (-1) = -32000 ∧
      feed (target_bytes 16000 (-1)) [] [[0]] = ([], [[0]]) := by
  have htb : target_bytes 16000 (-1) = -32000 := by norm_num [target_bytes, pyInt]
  refine ⟨rfl, htb, ?_⟩
  rw [htb]
  decide

/-- C8 amended: the run performs no range validation of chunk_seconds or
rms_threshold: every parsed configuration value is accepted — the run is never
failed before the pipeline stages start (only an argument that float() cannot
parse aborts, inside argparse) — and with chunk_seconds = -1 the pipeline
simply runs with a negative byte threshold, emitting a window for the very
first frame. -/
theorem config_validation_amended (chunk_seconds rms_threshold : ℚ) :
    configRejected chunk_seconds rms_threshold = false ∧
      feed (target_bytes 16000 (-1)) [] [[0]] = ([], [[0]]) := by
  have htb : target_bytes 16000 (-1) = -32000 := by norm_num [target_bytes, pyInt]
  exact ⟨rfl, by rw [htb]; decide⟩
